import Mathlib

/-!
Verification of the simplex stepper library (`src/simplex`).

The repository's `lib.rs` and `constraint.rs` are embedded directly.  The
modules `linear_function.rs` and `error.rs`, and the inherent methods of
`Constraints` (`most_restrictive`, `pivot`, `is_valid`, `non_gap_variables`),
are declared and called by the sources but their files are not present in the
tree; those parts are modelled from the specification (their doc comments say
so explicitly).  Coefficients are embedded as exact rationals.
-/

namespace Pedalgo

/-- Lexicographic order on character lists, by character code.  Executable
replacement for the string order (alphabetical order per the spec). -/
def lexLe : List Char → List Char → Bool
  | [], _ => true
  | _ :: _, [] => false
  | a :: as, b :: bs =>
    if a.toNat < b.toNat then true
    else if b.toNat < a.toNat then false
    else lexLe as bs

/-- Alphabetical (lexicographic) order on variable names. -/
def strLe (a b : String) : Bool := lexLe a.data b.data

/-- Modelled from the spec: gap (slack) variables carry internally generated
names `_g1, _g2, …`; a name is a gap name when it starts with `_g`. -/
def isGapName (v : String) : Bool :=
  match v.data with
  | '_' :: 'g' :: _ => true
  | _ => false

/-- Modelled from the spec (the file `linear_function.rs` is absent from the
tree): a `LinearFunction` is a mapping from variable name to rational
coefficient plus a constant term.  The mapping is realised as an association
list; repeated entries for one name accumulate, and the represented
coefficient of a name is the sum of its entries (`sumCoeff`). -/
structure LinearFunction where
  terms : List (String × ℚ)
  constant : ℚ
deriving DecidableEq, Repr

/-- The coefficient that an association list assigns to a variable:
the sum of all entries carrying that name. -/
def sumCoeff : List (String × ℚ) → String → ℚ
  | [], _ => 0
  | (w, c) :: ts, v => (if w = v then c else 0) + sumCoeff ts v

namespace LinearFunction

/-- Coefficient of variable `v` in `f`. -/
def coeffOf (f : LinearFunction) (v : String) : ℚ := sumCoeff f.terms v

/-- Modelled from the spec: the additive identity (empty map, constant 0). -/
def zero : LinearFunction := ⟨[], 0⟩

/-- Modelled from the spec: per-term addition; constants combine
independently, identical variables merge coefficients. -/
def add (f g : LinearFunction) : LinearFunction :=
  ⟨f.terms ++ g.terms, f.constant + g.constant⟩

/-- Modelled from the spec: negation of every coefficient and the constant. -/
def neg (f : LinearFunction) : LinearFunction :=
  ⟨f.terms.map (fun p => (p.1, -p.2)), -f.constant⟩

instance : Add LinearFunction := ⟨add⟩
instance : Neg LinearFunction := ⟨neg⟩
instance : Sub LinearFunction := ⟨fun f g => f + (-g)⟩

/-- The expression consisting of the single variable `v` with coefficient 1. -/
def ofVar (v : String) : LinearFunction := ⟨[(v, 1)], 0⟩

/-- Insert a name into an alphabetically sorted list of names. -/
def insertSorted (v : String) : List String → List String
  | [] => [v]
  | w :: ws => if strLe v w then v :: w :: ws else w :: insertSorted v ws

/-- Sort a list of names alphabetically (insertion sort). -/
def sortStrings : List String → List String :=
  List.foldr insertSorted []

/-- Keep the names of `l` whose represented coefficient in `ts` is nonzero. -/
def nonzeroVars (ts : List (String × ℚ)) : List String → List String
  | [] => []
  | v :: vs =>
    if sumCoeff ts v = 0 then nonzeroVars ts vs else v :: nonzeroVars ts vs

/-- Modelled from the spec: the finite, restartable sequence of all variable
names with non-zero coefficient, in a deterministic order.  The spec leaves
the enumeration order implementation-defined and recommends alphabetical
order (which is also the order used wherever ordering is user-visible), so
the model enumerates alphabetically. -/
def var_iter (f : LinearFunction) : List String :=
  sortStrings (nonzeroVars f.terms (f.terms.map Prod.fst).dedup)

/-- Modelled from the spec: first variable of the enumeration with strictly
positive coefficient; `none` when no positive coefficient exists.  Because
the modelled enumeration order is alphabetical, the natural order and
Bland's rule (smallest index) select the same variable, so the tie-break
flag does not change the result. -/
def first_positive_coefficient (f : LinearFunction) (_use_bland_rule : Bool) :
    Option String :=
  firstPos f.var_iter
where
  /-- First name of the list with strictly positive coefficient in `f`. -/
  firstPos : List String → Option String
    | [] => none
    | v :: vs => if 0 < f.coeffOf v then some v else firstPos vs

/-- Modelled from the spec: if the expression has constant 0 and exactly one
variable with non-zero coefficient, that coefficient being exactly 1,
returns that variable's name; otherwise returns nothing. -/
def name_single_variable (f : LinearFunction) : Option String :=
  match f.var_iter with
  | [v] => if f.coeffOf v = 1 ∧ f.constant = 0 then some v else none
  | _ => none

/-- Modelled from the spec (`substitute` / `replace`): wherever `var` appears
with coefficient `k`, removes that term and adds `k ·` replacement, the
constant folded in. -/
def replace (f : LinearFunction) (var : String) (repl : LinearFunction) :
    LinearFunction :=
  let k := f.coeffOf var
  ⟨f.terms.filter (fun p => p.1 ≠ var) ++ repl.terms.map (fun p => (p.1, k * p.2)),
   f.constant + k * repl.constant⟩

/-- Modelled from the spec (`solve_for`): for `E` read as the equation
`E = 0` with `c` the coefficient of `var`, produces the expression `E'` with
`var`'s own term removed and everything divided by `−c`, so that `var = E'`
is equivalent to `E = 0`.  (With a zero coefficient the rational division by
zero yields the zero expression; the spec classifies that call as an internal
invariant violation that correct pivot selection never makes.) -/
def solve_for (f : LinearFunction) (var : String) : LinearFunction :=
  let c := f.coeffOf var
  ⟨(f.terms.filter (fun p => p.1 ≠ var)).map (fun p => (p.1, p.2 / (-c))),
   f.constant / (-c)⟩

/-- Modelled from the spec: the structural (non-gap) variables of the
expression. -/
def non_gap_variables (f : LinearFunction) : List String :=
  f.var_iter.filter (fun v => !isGapName v)

end LinearFunction

/-- `constraint.rs`: the five relations, purely descriptive of the original
input. -/
inductive Operator where
  | equal
  | less
  | greater
  | lessEqual
  | greaterEqual
deriving DecidableEq, Repr

/-- `constraint.rs`: one row — a left expression, the original operator and a
right expression. -/
structure Constraint where
  left : LinearFunction
  operator : Operator
  right : LinearFunction
deriving DecidableEq, Repr

namespace Constraint

/-- `Constraint::new` from `constraint.rs`: canonicalisation at construction
(`Equal`: left ← left − right, right ← 0; `LessEqual`: left ← −left;
the three other operators leave both sides unchanged). -/
def new (left : LinearFunction) (operator : Operator) (right : LinearFunction) :
    Constraint :=
  match operator with
  | .equal => ⟨left - right, operator, LinearFunction.zero⟩
  | .less => ⟨left, operator, right⟩
  | .greater => ⟨left, operator, right⟩
  | .lessEqual => ⟨-left, operator, right⟩
  | .greaterEqual => ⟨left, operator, right⟩

/-- Modelled from the spec: `Constraint::normalize(var)` solves the row
equation `left = right` for `var` (the source delegates to the absent
`LinearFunction::normalize`), producing the row `var = rearranged` with the
original operator kept. -/
def normalize (c : Constraint) (var : String) : Constraint :=
  ⟨LinearFunction.ofVar var, c.operator, (c.right - c.left).solve_for var⟩

end Constraint

/-- `constraint.rs`: ordered sequence of rows. -/
structure Constraints where
  inner : List Constraint
deriving DecidableEq, Repr

/-- Default row used only to totalise out-of-range indexing (the Rust
indexing panics out of range; every use below stays in range). -/
def emptyConstraint : Constraint :=
  ⟨LinearFunction.zero, Operator.equal, LinearFunction.zero⟩

namespace Constraints

/-- The bound a restricting row imposes on the entering variable: the row's
constant term divided by the magnitude of the variable's coefficient. -/
def rowBound (c : Constraint) (var : String) : ℚ :=
  c.right.constant / (-(c.right.coeffOf var))

/-- Helper for `most_restrictive`: index (relative to the given list) and
bound of the restricting row with the smallest bound, earliest row winning
ties; `none` when no row restricts. -/
def mrAux (var : String) : List Constraint → Option (ℕ × ℚ)
  | [] => none
  | r :: rs =>
    let rest := (mrAux var rs).map (fun p => (p.1 + 1, p.2))
    if r.right.coeffOf var < 0 then
      match rest with
      | none => some (0, rowBound r var)
      | some (j, q) =>
        if rowBound r var ≤ q then some (0, rowBound r var) else some (j, q)
    else rest

/-- Modelled from the spec: the minimum-ratio test.  Among the rows whose
right side carries `var` with a negative coefficient (increasing `var` pushes
the row's basic variable toward violating non-negativity), selects the row
whose bound — constant term over coefficient magnitude — is smallest, ties
broken by smallest row index; `none` when no row restricts `var`. -/
def most_restrictive (cs : Constraints) (var : String) : Option ℕ :=
  (mrAux var cs.inner).map Prod.fst

/-- Modelled from the spec: `ConstraintSet::pivot(row, var)` normalizes the
selected row so its left side becomes `var`, then substitutes the new
definition of `var` into every other row's right side. -/
def pivot (cs : Constraints) (i : ℕ) (var : String) : Constraints :=
  match cs.inner.get? i with
  | none => cs
  | some row =>
    let newRow := row.normalize var
    ⟨(List.range cs.inner.length).map fun j =>
      if j = i then newRow
      else
        let r := cs.inner.getD j emptyConstraint
        ⟨r.left, r.operator, r.right.replace var newRow.right⟩⟩

/-- Modelled from the spec: a dictionary is valid (a basic feasible solution)
iff every row's constant term — the current value of its basic variable —
is non-negative. -/
def is_valid (cs : Constraints) : Prop :=
  ∀ r ∈ cs.inner, 0 ≤ r.right.constant

instance (cs : Constraints) : Decidable cs.is_valid :=
  List.decidableBAll _ cs.inner

/-- Modelled from the spec: the structural (non-gap) variable names appearing
anywhere in the tableau. -/
def non_gap_variables (cs : Constraints) : List String :=
  cs.inner.foldr
    (fun r acc => r.left.non_gap_variables ++ r.right.non_gap_variables ++ acc) []

end Constraints

/-- `error.rs` is absent from the tree; modelled from the spec's error
taxonomy (§7), keeping the two members that `lib.rs` names. -/
inductive SimplexError where
  | unbounded
  | alreadyOptimal
deriving DecidableEq, Repr

/-- Mirrors a Rust panic: a library call that aborts instead of returning. -/
inductive PanicOr (α : Type) where
  | panic (msg : String)
  | ok (val : α)
deriving DecidableEq, Repr

/-- `lib.rs`: a linear program — one objective paired with one constraint
set. -/
structure LinearProgram where
  linear_function : LinearFunction
  constraints : Constraints
deriving DecidableEq, Repr

/-- Default program used only to totalise out-of-range history indexing
(the Rust indexing panics; the cursor invariant keeps every use in range). -/
def defaultLP : LinearProgram := ⟨LinearFunction.zero, ⟨[]⟩⟩

namespace LinearProgram

/-- `LinearProgram::pivot` from `lib.rs`.  The Rust method mutates `self` and
returns `Result<(), SimplexError>`; the embedding returns the updated program
together with the optional error.  It locates the most restrictive row,
fails with `Unbounded` when there is none, otherwise pivots the constraint
set on that row and substitutes the new definition of `var` (the pivoted
row's right side) into the objective. -/
def pivot (lp : LinearProgram) (var : String) :
    LinearProgram × Option SimplexError :=
  match lp.constraints.most_restrictive var with
  | none => (lp, some .unbounded)
  | some i =>
    let cs' := lp.constraints.pivot i var
    let newDef := (cs'.inner.getD i emptyConstraint).right
    (⟨lp.linear_function.replace var newDef, cs'⟩, none)

/-- `LinearProgram::is_valid` from `lib.rs`: delegates to the constraint
set. -/
def is_valid (lp : LinearProgram) : Prop := lp.constraints.is_valid

instance (lp : LinearProgram) : Decidable lp.is_valid :=
  inferInstanceAs (Decidable lp.constraints.is_valid)

/-- `LinearProgram::is_unbounded` from `lib.rs`: true when some variable of
the objective (the source iterates `var_iter`, i.e. every enumerated
variable of the objective, gap or not) has no restricting row. -/
def is_unbounded (lp : LinearProgram) : Bool :=
  lp.linear_function.var_iter.any
    (fun v => (lp.constraints.most_restrictive v).isNone)

/-- `LinearProgram::non_gap_variables` from `lib.rs`: every structural
variable of the program, sorted alphabetically (the Rust collects a hash set
and sorts it; the embedding deduplicates and sorts). -/
def non_gap_variables (lp : LinearProgram) : List String :=
  LinearFunction.sortStrings
    ((lp.linear_function.non_gap_variables ++ lp.constraints.non_gap_variables).dedup)

/-- One iteration of the `point` loop: when the row's left side is exactly
one basic variable that occurs in `vars`, write the row's constant term at
that variable's position. -/
def updatePoint (vars : List String) (pt : List ℚ) (row : Constraint) : List ℚ :=
  match row.left.name_single_variable with
  | none => pt
  | some v =>
    match findIndex v vars with
    | none => pt
    | some j => pt.set j row.right.constant
where
  /-- Position of the first occurrence of a name in a list. -/
  findIndex (v : String) : List String → Option ℕ
    | [] => none
    | w :: ws => if w = v then some 0 else (findIndex v ws).map (· + 1)

/-- `LinearProgram::point` from `lib.rs`: panics when the program is not
valid; otherwise starts from the all-zero vector over the structural
variables (alphabetical order) and, for each row whose left side is exactly
a single structural variable, writes that row's constant term at the
variable's position. -/
def point (lp : LinearProgram) : PanicOr (List ℚ) :=
  if lp.is_valid then
    let vars := lp.non_gap_variables
    .ok (lp.constraints.inner.foldl (updatePoint vars)
      (List.replicate vars.length 0))
  else .panic "Linear program is not valid"

/-- `LinearProgram::values` from `lib.rs`: zips the structural variable names
with the coordinates of `point` (propagating the panic of `point`). -/
def values (lp : LinearProgram) : PanicOr (List (String × ℚ)) :=
  match lp.point with
  | .panic msg => .panic msg
  | .ok pt => .ok (lp.non_gap_variables.zip pt)

end LinearProgram

/-- `lib.rs`: the stepper — an append-only history of program snapshots plus
a cursor. -/
structure Simplex where
  index : ℕ
  historic : List LinearProgram
deriving DecidableEq, Repr

namespace Simplex

/-- `From<LinearProgram> for Simplex` from `lib.rs`: history `[value]`,
cursor 0. -/
def fromLP (value : LinearProgram) : Simplex := ⟨0, [value]⟩

/-- `Simplex::current_state` from `lib.rs`: the program at the cursor. -/
def current_state (s : Simplex) : LinearProgram :=
  s.historic.getD s.index defaultLP

/-- `Simplex::next_step` from `lib.rs`.  The Rust method mutates `self` and
returns `Result<(), SimplexError>`; the embedding returns the updated stepper
together with the optional error.  It looks for an entering variable in the
program at the cursor (`current_state`); with none it fails `AlreadyOptimal`.
Otherwise, when the cursor sits at the history frontier it clones the
frontier program, pivots the clone (propagating a pivot failure with the
stepper unchanged) and appends it; in every success case the cursor advances
by one. -/
def next_step (s : Simplex) (use_bland_rule : Bool) :
    Simplex × Option SimplexError :=
  match s.current_state.linear_function.first_positive_coefficient use_bland_rule with
  | none => (s, some .alreadyOptimal)
  | some var =>
    if s.index = s.historic.length - 1 then
      match s.current_state.pivot var with
      | (_, some e) => (s, some e)
      | (p, none) => (⟨s.index + 1, s.historic ++ [p]⟩, none)
    else (⟨s.index + 1, s.historic⟩, none)

/-- `Simplex::previous_step` from `lib.rs`: decrement the cursor unless at
the first step. -/
def previous_step (s : Simplex) : Simplex :=
  if s.index = 0 then s else ⟨s.index - 1, s.historic⟩

end Simplex

/-- The stepper states reachable from the initial program through the public
lifecycle: creation via `From`, then any sequence of `next_step` /
`previous_step` calls. -/
inductive Reachable (init : LinearProgram) : Simplex → Prop
  | init : Reachable init (Simplex.fromLP init)
  | next (s : Simplex) (b : Bool) :
      Reachable init s → Reachable init (s.next_step b).1
  | prev (s : Simplex) :
      Reachable init s → Reachable init s.previous_step

end Pedalgo

namespace Pedalgo

/-! ### Coefficient arithmetic of the expression operations -/

theorem sumCoeff_append (l₁ l₂ : List (String × ℚ)) (v : String) :
    sumCoeff (l₁ ++ l₂) v = sumCoeff l₁ v + sumCoeff l₂ v := by
  induction l₁ with
  | nil => simp [sumCoeff]
  | cons p ts ih => simp [sumCoeff, ih]; ring

theorem sumCoeff_map_neg (l : List (String × ℚ)) (v : String) :
    sumCoeff (l.map fun p => (p.1, -p.2)) v = -sumCoeff l v := by
  induction l with
  | nil => simp [sumCoeff]
  | cons p ts ih =>
    by_cases h : p.1 = v <;> simp [sumCoeff, h, ih] <;> ring

theorem sumCoeff_map_mul (k : ℚ) (l : List (String × ℚ)) (v : String) :
    sumCoeff (l.map fun p => (p.1, k * p.2)) v = k * sumCoeff l v := by
  induction l with
  | nil => simp [sumCoeff]
  | cons p ts ih =>
    by_cases h : p.1 = v <;> simp [sumCoeff, h, ih] <;> ring

theorem sumCoeff_map_div (c : ℚ) (l : List (String × ℚ)) (v : String) :
    sumCoeff (l.map fun p => (p.1, p.2 / c)) v = sumCoeff l v / c := by
  induction l with
  | nil => simp [sumCoeff]
  | cons p ts ih =>
    by_cases h : p.1 = v <;> simp [sumCoeff, h, ih] <;> ring

theorem sumCoeff_filter_self (l : List (String × ℚ)) (v : String) :
    sumCoeff (l.filter fun p => p.1 ≠ v) v = 0 := by
  induction l with
  | nil => rfl
  | cons p ts ih =>
    obtain ⟨w, c⟩ := p
    by_cases h : w = v
    · rw [List.filter_cons_of_neg (by simp [h])]; exact ih
    · rw [List.filter_cons_of_pos (by simp [h])]
      simp only [sumCoeff]
      rw [if_neg h, ih, zero_add]

theorem sumCoeff_filter_other (l : List (String × ℚ)) {v w : String}
    (hw : w ≠ v) : sumCoeff (l.filter fun p => p.1 ≠ v) w = sumCoeff l w := by
  induction l with
  | nil => rfl
  | cons p ts ih =>
    obtain ⟨u, c⟩ := p
    by_cases h : u = v
    · rw [List.filter_cons_of_neg (by simp [h])]
      have h2 : ¬u = w := by rw [h]; exact Ne.symm hw
      simp only [sumCoeff]
      rw [if_neg h2, ih, zero_add]
    · rw [List.filter_cons_of_pos (by simp [h])]
      simp only [sumCoeff]
      rw [ih]

theorem sumCoeff_eq_zero_of_not_mem {l : List (String × ℚ)} {v : String}
    (h : v ∉ l.map Prod.fst) : sumCoeff l v = 0 := by
  induction l with
  | nil => rfl
  | cons p ts ih =>
    simp only [List.map_cons, List.mem_cons] at h
    push_neg at h
    have h1 : p.1 ≠ v := fun he => h.1 he.symm
    simp [sumCoeff, h1, ih h.2]

namespace LinearFunction

theorem coeffOf_add (f g : LinearFunction) (v : String) :
    (f + g).coeffOf v = f.coeffOf v + g.coeffOf v :=
  sumCoeff_append f.terms g.terms v

theorem coeffOf_neg (f : LinearFunction) (v : String) :
    (-f).coeffOf v = -f.coeffOf v :=
  sumCoeff_map_neg f.terms v

theorem coeffOf_sub (f g : LinearFunction) (v : String) :
    (f - g).coeffOf v = f.coeffOf v - g.coeffOf v := by
  show (f + -g).coeffOf v = _
  rw [coeffOf_add, coeffOf_neg]; ring

theorem constant_add (f g : LinearFunction) : (f + g).constant = f.constant + g.constant := rfl

theorem constant_neg (f : LinearFunction) : (-f).constant = -f.constant := rfl

theorem constant_sub (f g : LinearFunction) :
    (f - g).constant = f.constant - g.constant := by
  show (f + -g).constant = _
  rw [constant_add, constant_neg]; ring

theorem coeffOf_ofVar (w v : String) :
    (ofVar w).coeffOf v = if w = v then 1 else 0 := by
  by_cases h : w = v <;> simp [ofVar, coeffOf, sumCoeff, h]

theorem constant_ofVar (w : String) : (ofVar w).constant = 0 := rfl

theorem coeffOf_replace (f : LinearFunction) (var : String) (r : LinearFunction)
    (v : String) :
    (f.replace var r).coeffOf v =
      (if v = var then 0 else f.coeffOf v) + f.coeffOf var * r.coeffOf v := by
  unfold replace coeffOf
  rw [sumCoeff_append, sumCoeff_map_mul]
  by_cases h : v = var
  · subst h; rw [sumCoeff_filter_self]; simp
  · rw [sumCoeff_filter_other _ h]; simp [h]

theorem constant_replace (f : LinearFunction) (var : String) (r : LinearFunction) :
    (f.replace var r).constant = f.constant + f.coeffOf var * r.constant := rfl

theorem coeffOf_solve_for_self (f : LinearFunction) (var : String) :
    (f.solve_for var).coeffOf var = 0 := by
  unfold solve_for coeffOf
  rw [sumCoeff_map_div, sumCoeff_filter_self]
  simp

theorem coeffOf_solve_for (f : LinearFunction) {var v : String} (h : v ≠ var) :
    (f.solve_for var).coeffOf v = f.coeffOf v / (-(f.coeffOf var)) := by
  unfold solve_for coeffOf
  rw [sumCoeff_map_div, sumCoeff_filter_other _ h]

theorem constant_solve_for (f : LinearFunction) (var : String) :
    (f.solve_for var).constant = f.constant / (-(f.coeffOf var)) := rfl

end LinearFunction

end Pedalgo

namespace Pedalgo

/-! ### The alphabetical order and the sorted variable enumeration -/

theorem lexLe_cons_iff (x y : Char) (xs ys : List Char) :
    lexLe (x :: xs) (y :: ys) = true ↔
      x.toNat < y.toNat ∨ (x.toNat = y.toNat ∧ lexLe xs ys = true) := by
  simp only [lexLe]
  by_cases h1 : x.toNat < y.toNat
  · simp [h1]
  · by_cases h2 : y.toNat < x.toNat
    · simp only [if_neg h1, if_pos h2]
      constructor
      · intro h; exact absurd h (by simp)
      · rintro (h | ⟨h, _⟩) <;> omega
    · have he : x.toNat = y.toNat := by omega
      simp [h1, h2, he]

theorem lexLe_refl : ∀ l : List Char, lexLe l l = true := by
  intro l
  induction l with
  | nil => rfl
  | cons a as ih => rw [lexLe_cons_iff]; exact Or.inr ⟨rfl, ih⟩

theorem lexLe_total : ∀ a b : List Char, lexLe a b = true ∨ lexLe b a = true := by
  intro a
  induction a with
  | nil => intro b; left; rfl
  | cons x xs ih =>
    intro b
    cases b with
    | nil => right; rfl
    | cons y ys =>
      rw [lexLe_cons_iff, lexLe_cons_iff]
      rcases Nat.lt_trichotomy x.toNat y.toNat with h | h | h
      · exact Or.inl (Or.inl h)
      · rcases ih ys with h2 | h2
        · exact Or.inl (Or.inr ⟨h, h2⟩)
        · exact Or.inr (Or.inr ⟨h.symm, h2⟩)
      · exact Or.inr (Or.inl h)

theorem lexLe_trans : ∀ a b c : List Char,
    lexLe a b = true → lexLe b c = true → lexLe a c = true := by
  intro a
  induction a with
  | nil => intros; rfl
  | cons x xs ih =>
    intro b c hab hbc
    cases b with
    | nil => exact absurd hab (by simp [lexLe])
    | cons y ys =>
      cases c with
      | nil => exact absurd hbc (by simp [lexLe])
      | cons z zs =>
        rw [lexLe_cons_iff] at hab hbc ⊢
        rcases hab with h1 | ⟨h1, h1'⟩ <;> rcases hbc with h2 | ⟨h2, h2'⟩
        · exact Or.inl (h1.trans h2)
        · exact Or.inl (by omega)
        · exact Or.inl (by omega)
        · exact Or.inr ⟨h1.trans h2, ih ys zs h1' h2'⟩

theorem strLe_refl (a : String) : strLe a a = true := lexLe_refl a.data

theorem strLe_total (a b : String) : strLe a b = true ∨ strLe b a = true :=
  lexLe_total a.data b.data

theorem strLe_trans {a b c : String} (h1 : strLe a b = true)
    (h2 : strLe b c = true) : strLe a c = true :=
  lexLe_trans a.data b.data c.data h1 h2

/-- Alphabetically non-decreasing list of names. -/
def AlphaSorted (l : List String) : Prop :=
  l.Pairwise (fun a b => strLe a b = true)

namespace LinearFunction

theorem insertSorted_perm (v : String) (l : List String) :
    (insertSorted v l).Perm (v :: l) := by
  induction l with
  | nil => exact List.Perm.refl _
  | cons w ws ih =>
    simp only [insertSorted]
    by_cases h : strLe v w = true
    · rw [if_pos h]
    · rw [if_neg h]
      exact (ih.cons w).trans (List.Perm.swap v w ws)

theorem sortStrings_perm (l : List String) : (sortStrings l).Perm l := by
  induction l with
  | nil => exact List.Perm.refl _
  | cons v vs ih =>
    show (insertSorted v (sortStrings vs)).Perm (v :: vs)
    exact (insertSorted_perm v (sortStrings vs)).trans (ih.cons v)

theorem mem_sortStrings {l : List String} {w : String} :
    w ∈ sortStrings l ↔ w ∈ l :=
  (sortStrings_perm l).mem_iff

theorem insertSorted_sorted {v : String} {l : List String}
    (h : AlphaSorted l) : AlphaSorted (insertSorted v l) := by
  unfold AlphaSorted at h ⊢
  induction l with
  | nil => simp [insertSorted]
  | cons w ws ih =>
    rw [List.pairwise_cons] at h
    simp only [insertSorted]
    by_cases hvw : strLe v w = true
    · rw [if_pos hvw, List.pairwise_cons]
      refine ⟨?_, List.pairwise_cons.mpr h⟩
      intro b hb
      rcases List.mem_cons.mp hb with rfl | hb
      · exact hvw
      · exact strLe_trans hvw (h.1 b hb)
    · rw [if_neg hvw, List.pairwise_cons]
      have hwv : strLe w v = true := (strLe_total v w).resolve_left hvw
      refine ⟨?_, ih h.2⟩
      intro b hb
      rcases List.mem_cons.mp ((insertSorted_perm v ws).mem_iff.mp hb) with rfl | hb
      · exact hwv
      · exact h.1 b hb

theorem sortStrings_sorted (l : List String) : AlphaSorted (sortStrings l) := by
  induction l with
  | nil => simp [sortStrings, AlphaSorted]
  | cons v vs ih => exact insertSorted_sorted ih

theorem nonzeroVars_sublist (ts : List (String × ℚ)) (l : List String) :
    List.Sublist (nonzeroVars ts l) l := by
  induction l with
  | nil => exact List.Sublist.refl _
  | cons v vs ih =>
    simp only [nonzeroVars]
    by_cases h : sumCoeff ts v = 0
    · rw [if_pos h]; exact ih.cons v
    · rw [if_neg h]; exact ih.cons₂ v

theorem mem_nonzeroVars {ts : List (String × ℚ)} {l : List String} {v : String} :
    v ∈ nonzeroVars ts l ↔ v ∈ l ∧ sumCoeff ts v ≠ 0 := by
  induction l with
  | nil => simp [nonzeroVars]
  | cons w ws ih =>
    simp only [nonzeroVars]
    by_cases h : sumCoeff ts w = 0
    · rw [if_pos h, ih]
      constructor
      · rintro ⟨hm, hz⟩; exact ⟨List.mem_cons_of_mem w hm, hz⟩
      · rintro ⟨hm, hz⟩
        rcases List.mem_cons.mp hm with rfl | hm
        · exact absurd h hz
        · exact ⟨hm, hz⟩
    · rw [if_neg h]
      constructor
      · intro hm
        rcases List.mem_cons.mp hm with rfl | hm
        · exact ⟨List.mem_cons_self _ _, h⟩
        · exact ⟨List.mem_cons_of_mem w (ih.mp hm).1, (ih.mp hm).2⟩
      · rintro ⟨hm, hz⟩
        rcases List.mem_cons.mp hm with rfl | hm
        · exact List.mem_cons_self _ _
        · exact List.mem_cons_of_mem w (ih.mpr ⟨hm, hz⟩)

theorem mem_var_iter {f : LinearFunction} {v : String} :
    v ∈ f.var_iter ↔ f.coeffOf v ≠ 0 := by
  rw [var_iter, mem_sortStrings, mem_nonzeroVars]
  constructor
  · exact fun h => h.2
  · intro h
    refine ⟨List.mem_dedup.mpr ?_, h⟩
    by_contra hm
    exact h (sumCoeff_eq_zero_of_not_mem hm)

theorem var_iter_sorted (f : LinearFunction) : AlphaSorted f.var_iter :=
  sortStrings_sorted _

theorem var_iter_nodup (f : LinearFunction) : f.var_iter.Nodup := by
  rw [var_iter]
  refine (sortStrings_perm _).nodup_iff.mpr ?_
  exact (nonzeroVars_sublist _ _).nodup (List.nodup_dedup _)

/-- The tie-break flag does not influence the modelled entering-variable
search (the enumeration is alphabetical, so the natural first positive
variable and Bland's smallest-index positive variable coincide). -/
theorem first_positive_coefficient_flag (f : LinearFunction) (b b' : Bool) :
    f.first_positive_coefficient b = f.first_positive_coefficient b' := rfl

theorem firstPos_eq_none_iff (f : LinearFunction) (l : List String) :
    first_positive_coefficient.firstPos f l = none ↔
      ∀ v ∈ l, ¬0 < f.coeffOf v := by
  induction l with
  | nil => simp [first_positive_coefficient.firstPos]
  | cons v vs ih =>
    simp only [first_positive_coefficient.firstPos]
    by_cases h : 0 < f.coeffOf v
    · rw [if_pos h]; simp [h]
    · rw [if_neg h]
      simp only [ih, List.mem_cons]
      constructor
      · rintro ha w (rfl | hw)
        · exact h
        · exact ha w hw
      · intro ha w hw; exact ha w (Or.inr hw)

theorem firstPos_eq_some (f : LinearFunction) (l : List String) (v : String)
    (h : first_positive_coefficient.firstPos f l = some v) :
    v ∈ l ∧ 0 < f.coeffOf v := by
  induction l with
  | nil => exact absurd h (by simp [first_positive_coefficient.firstPos])
  | cons w ws ih =>
    simp only [first_positive_coefficient.firstPos] at h
    by_cases hw : 0 < f.coeffOf w
    · rw [if_pos hw] at h
      cases h
      exact ⟨List.mem_cons_self _ _, hw⟩
    · rw [if_neg hw] at h
      exact ⟨List.mem_cons_of_mem w (ih h).1, (ih h).2⟩

theorem first_positive_eq_none_iff (f : LinearFunction) (b : Bool) :
    f.first_positive_coefficient b = none ↔
      ∀ v ∈ f.var_iter, ¬0 < f.coeffOf v :=
  firstPos_eq_none_iff f f.var_iter

theorem first_positive_eq_some (f : LinearFunction) (b : Bool) (v : String)
    (h : f.first_positive_coefficient b = some v) :
    v ∈ f.var_iter ∧ 0 < f.coeffOf v :=
  firstPos_eq_some f f.var_iter v h

end LinearFunction

end Pedalgo

namespace Pedalgo

/-! ### Specification of the minimum-ratio row selection -/

namespace Constraints

theorem mrAux_eq_none_iff (var : String) (l : List Constraint) :
    mrAux var l = none ↔ ∀ r ∈ l, ¬(r.right.coeffOf var < 0) := by
  induction l with
  | nil => simp [mrAux]
  | cons r rs ih =>
    simp only [mrAux]
    by_cases hc : r.right.coeffOf var < 0
    · rw [if_pos hc]
      have hr : ¬(∀ r' ∈ r :: rs, ¬(r'.right.coeffOf var < 0)) :=
        fun h => (h r (List.mem_cons_self r rs)) hc
      cases hrest : (mrAux var rs).map (fun p : ℕ × ℚ => (p.1 + 1, p.2)) with
      | none => exact iff_of_false (by simp) hr
      | some p =>
        obtain ⟨j, q⟩ := p
        refine iff_of_false ?_ hr
        show ¬(if rowBound r var ≤ q then some (0, rowBound r var)
          else some (j, q)) = none
        split <;> simp
    · rw [if_neg hc, Option.map_eq_none', ih]
      constructor
      · intro h r' hr'
        rcases List.mem_cons.mp hr' with rfl | hr'
        · exact hc
        · exact h r' hr'
      · intro h r' hr'
        exact h r' (List.mem_cons_of_mem r hr')

theorem mrAux_some_spec (var : String) :
    ∀ (l : List Constraint) (i : ℕ) (q : ℚ), mrAux var l = some (i, q) →
      i < l.length ∧
      (l.getD i emptyConstraint).right.coeffOf var < 0 ∧
      q = rowBound (l.getD i emptyConstraint) var ∧
      ∀ j, j < l.length → (l.getD j emptyConstraint).right.coeffOf var < 0 →
        q ≤ rowBound (l.getD j emptyConstraint) var := by
  intro l
  induction l with
  | nil => intro i q h; exact absurd h (by simp [mrAux])
  | cons r rs ih =>
    intro i q h
    simp only [mrAux] at h
    by_cases hc : r.right.coeffOf var < 0
    · rw [if_pos hc] at h
      cases hrest : mrAux var rs with
      | none =>
        rw [hrest] at h
        simp only [Option.map_none', Option.some.injEq, Prod.mk.injEq] at h
        obtain ⟨rfl, rfl⟩ := h
        refine ⟨by simp, by simpa using hc, by simp, ?_⟩
        intro j hj hcj
        cases j with
        | zero => simp
        | succ j =>
          exfalso
          have hnone := (mrAux_eq_none_iff var rs).mp hrest
          have hjl : j < rs.length := by simpa using hj
          have hmem : rs.getD j emptyConstraint ∈ rs := by
            rw [List.getD_eq_getElem _ _ hjl]
            exact List.getElem_mem hjl
          exact hnone _ hmem (by simpa using hcj)
      | some p =>
        obtain ⟨j0, q0⟩ := p
        rw [hrest] at h
        simp only [Option.map_some'] at h
        have ihs := ih j0 q0 hrest
        by_cases hle : rowBound r var ≤ q0
        · rw [if_pos hle] at h
          simp only [Option.some.injEq, Prod.mk.injEq] at h
          obtain ⟨rfl, rfl⟩ := h
          refine ⟨by simp, by simpa using hc, by simp, ?_⟩
          intro j hj hcj
          cases j with
          | zero => simp
          | succ j =>
            have hjl : j < rs.length := by simpa using hj
            have := ihs.2.2.2 j hjl (by simpa using hcj)
            calc rowBound r var ≤ q0 := hle
              _ ≤ _ := by simpa using this
        · rw [if_neg hle] at h
          simp only [Option.some.injEq, Prod.mk.injEq] at h
          obtain ⟨rfl, rfl⟩ := h
          refine ⟨by simpa using Nat.succ_lt_succ ihs.1, by simpa using ihs.2.1,
            by simpa using ihs.2.2.1, ?_⟩
          intro j hj hcj
          cases j with
          | zero =>
            have : q0 < rowBound r var := lt_of_not_le hle
            simpa using this.le
          | succ j =>
            have hjl : j < rs.length := by simpa using hj
            simpa using ihs.2.2.2 j hjl (by simpa using hcj)
    · rw [if_neg hc] at h
      rw [Option.map_eq_some'] at h
      obtain ⟨⟨i', q'⟩, hsome, heq⟩ := h
      simp only [Prod.mk.injEq] at heq
      obtain ⟨rfl, rfl⟩ := heq
      have ihs := ih i' q' hsome
      refine ⟨by simpa using Nat.succ_lt_succ ihs.1, by simpa using ihs.2.1,
        by simpa using ihs.2.2.1, ?_⟩
      intro j hj hcj
      cases j with
      | zero => exact absurd (by simpa using hcj) hc
      | succ j =>
        have hjl : j < rs.length := by simpa using hj
        simpa using ihs.2.2.2 j hjl (by simpa using hcj)

theorem most_restrictive_eq_none_iff (cs : Constraints) (var : String) :
    cs.most_restrictive var = none ↔
      ∀ r ∈ cs.inner, ¬(r.right.coeffOf var < 0) := by
  rw [most_restrictive, Option.map_eq_none', mrAux_eq_none_iff]

theorem most_restrictive_spec (cs : Constraints) (var : String) (i : ℕ)
    (h : cs.most_restrictive var = some i) :
    i < cs.inner.length ∧
    (cs.inner.getD i emptyConstraint).right.coeffOf var < 0 ∧
    ∀ j, j < cs.inner.length →
      (cs.inner.getD j emptyConstraint).right.coeffOf var < 0 →
      rowBound (cs.inner.getD i emptyConstraint) var ≤
        rowBound (cs.inner.getD j emptyConstraint) var := by
  rw [most_restrictive, Option.map_eq_some'] at h
  obtain ⟨⟨i', q⟩, hsome, heq⟩ := h
  cases heq
  have hs := mrAux_some_spec var cs.inner i' q hsome
  exact ⟨hs.1, hs.2.1, fun j hj hcj => hs.2.2.1 ▸ hs.2.2.2 j hj hcj⟩

/-! ### Shape of the tableau after one pivot -/

theorem pivot_def (cs : Constraints) (i : ℕ) (var : String)
    (hi : i < cs.inner.length) :
    (cs.pivot i var).inner = (List.range cs.inner.length).map (fun j =>
      if j = i then (cs.inner.getD i emptyConstraint).normalize var
      else
        ⟨(cs.inner.getD j emptyConstraint).left,
         (cs.inner.getD j emptyConstraint).operator,
         (cs.inner.getD j emptyConstraint).right.replace var
           ((cs.inner.getD i emptyConstraint).normalize var).right⟩) := by
  have hsome : cs.inner.get? i = some (cs.inner.getD i emptyConstraint) := by
    rw [List.get?_eq_getElem?, List.getElem?_eq_getElem hi,
      List.getD_eq_getElem _ _ hi]
  unfold pivot
  rw [hsome]

theorem pivot_length (cs : Constraints) (i : ℕ) (var : String)
    (hi : i < cs.inner.length) :
    (cs.pivot i var).inner.length = cs.inner.length := by
  rw [pivot_def cs i var hi]; simp

theorem pivot_getD_self (cs : Constraints) (i : ℕ) (var : String)
    (hi : i < cs.inner.length) :
    (cs.pivot i var).inner.getD i emptyConstraint =
      (cs.inner.getD i emptyConstraint).normalize var := by
  rw [pivot_def cs i var hi,
    List.getD_eq_getElem _ _ (by simpa using hi)]
  simp

theorem pivot_getD_other (cs : Constraints) (i j : ℕ) (var : String)
    (hi : i < cs.inner.length) (hj : j < cs.inner.length) (hne : j ≠ i) :
    (cs.pivot i var).inner.getD j emptyConstraint =
      ⟨(cs.inner.getD j emptyConstraint).left,
       (cs.inner.getD j emptyConstraint).operator,
       (cs.inner.getD j emptyConstraint).right.replace var
         ((cs.inner.getD i emptyConstraint).normalize var).right⟩ := by
  rw [pivot_def cs i var hi,
    List.getD_eq_getElem _ _ (by simpa using hj)]
  simp [hne]

end Constraints

end Pedalgo

namespace Pedalgo

/-! ### Feasibility preservation of the minimum-ratio pivot -/

namespace Constraints

theorem is_valid_getD (cs : Constraints) (hv : cs.is_valid) {j : ℕ}
    (hj : j < cs.inner.length) :
    0 ≤ (cs.inner.getD j emptyConstraint).right.constant := by
  have hv' : ∀ r ∈ cs.inner, 0 ≤ r.right.constant := hv
  refine hv' _ ?_
  rw [List.getD_eq_getElem _ _ hj]
  exact List.getElem_mem hj

/-- Core feasibility argument: pivoting a valid tableau on the row selected
by the minimum-ratio test keeps every row's constant term non-negative,
provided the selected row is in dictionary form with respect to the entering
variable (its left side has constant 0 and does not carry the variable). -/
theorem pivot_preserves_is_valid (cs : Constraints) (var : String) (i : ℕ)
    (hv : cs.is_valid)
    (hmr : cs.most_restrictive var = some i)
    (hc0 : (cs.inner.getD i emptyConstraint).left.constant = 0)
    (hcv : (cs.inner.getD i emptyConstraint).left.coeffOf var = 0) :
    (cs.pivot i var).is_valid := by
  obtain ⟨hi, hci, hmin⟩ := most_restrictive_spec cs var i hmr
  set row := cs.inner.getD i emptyConstraint with hrow
  have hRconst : 0 ≤ row.right.constant := is_valid_getD cs hv hi
  have hcE : (row.right - row.left).coeffOf var = row.right.coeffOf var := by
    rw [LinearFunction.coeffOf_sub, hcv, sub_zero]
  have hEconst : (row.right - row.left).constant = row.right.constant := by
    rw [LinearFunction.constant_sub, hc0, sub_zero]
  have hbeta : (row.normalize var).right.constant = rowBound row var := by
    show ((row.right - row.left).solve_for var).constant = _
    rw [LinearFunction.constant_solve_for, hcE, hEconst, rowBound]
  have hbeta_nonneg : 0 ≤ (row.normalize var).right.constant := by
    rw [hbeta, rowBound]
    exact div_nonneg hRconst (by linarith)
  show ∀ r' ∈ (cs.pivot i var).inner, 0 ≤ r'.right.constant
  intro r' hr'
  rw [List.mem_iff_getElem] at hr'
  obtain ⟨j, hj, hget⟩ := hr'
  have hjlen : j < cs.inner.length := by
    rwa [pivot_length cs i var hi] at hj
  have hgetD : (cs.pivot i var).inner.getD j emptyConstraint = r' := by
    rw [List.getD_eq_getElem _ _ hj]; exact hget
  by_cases hji : j = i
  · subst hji
    rw [pivot_getD_self cs j var hjlen] at hgetD
    rw [← hgetD]
    exact hbeta_nonneg
  · rw [pivot_getD_other cs i j var hi hjlen hji] at hgetD
    rw [← hgetD]
    rw [LinearFunction.constant_replace]
    set Rj := (cs.inner.getD j emptyConstraint).right with hRj
    have hRjconst : 0 ≤ Rj.constant := is_valid_getD cs hv hjlen
    by_cases haj : 0 ≤ Rj.coeffOf var
    · have := mul_nonneg haj hbeta_nonneg
      linarith
    · push_neg at haj
      have hminj := hmin j hjlen haj
      have hpos : 0 < -(Rj.coeffOf var) := by linarith
      have h1 : (row.normalize var).right.constant * (-(Rj.coeffOf var)) ≤
          (Rj.constant / (-(Rj.coeffOf var))) * (-(Rj.coeffOf var)) := by
        rw [hbeta]
        exact mul_le_mul_of_nonneg_right hminj hpos.le
      rw [div_mul_cancel₀ _ (ne_of_gt hpos)] at h1
      have h2 : (row.normalize var).right.constant * (-(Rj.coeffOf var)) =
          -(Rj.coeffOf var * (row.normalize var).right.constant) := by ring
      linarith

end Constraints

namespace LinearProgram

theorem pivot_eq_of_none (lp : LinearProgram) (var : String)
    (h : lp.constraints.most_restrictive var = none) :
    lp.pivot var = (lp, some SimplexError.unbounded) := by
  unfold pivot
  rw [h]

theorem pivot_eq_of_some (lp : LinearProgram) (var : String) (i : ℕ)
    (h : lp.constraints.most_restrictive var = some i) :
    lp.pivot var =
      (⟨lp.linear_function.replace var
          ((lp.constraints.pivot i var).inner.getD i emptyConstraint).right,
        lp.constraints.pivot i var⟩, none) := by
  unfold pivot
  rw [h]

theorem pivot_snd_eq_some_iff (lp : LinearProgram) (var : String) :
    (lp.pivot var).2 = some SimplexError.unbounded ↔
      lp.constraints.most_restrictive var = none := by
  cases h : lp.constraints.most_restrictive var with
  | none => simp [pivot_eq_of_none lp var h]
  | some i => simp [pivot_eq_of_some lp var i h]

end LinearProgram

end Pedalgo

namespace Pedalgo

/-! ### Behaviour of the stepper transitions -/

namespace Simplex

theorem next_step_of_optimal (s : Simplex) (b : Bool)
    (h : s.current_state.linear_function.first_positive_coefficient b = none) :
    s.next_step b = (s, some SimplexError.alreadyOptimal) := by
  unfold next_step
  rw [h]

theorem next_step_behind (s : Simplex) (b : Bool) (var : String)
    (h : s.current_state.linear_function.first_positive_coefficient b = some var)
    (hidx : s.index ≠ s.historic.length - 1) :
    s.next_step b = (⟨s.index + 1, s.historic⟩, none) := by
  unfold next_step
  simp only [h, if_neg hidx]

theorem next_step_frontier_fail (s : Simplex) (b : Bool) (var : String)
    (p : LinearProgram) (e : SimplexError)
    (h : s.current_state.linear_function.first_positive_coefficient b = some var)
    (hidx : s.index = s.historic.length - 1)
    (hpv : s.current_state.pivot var = (p, some e)) :
    s.next_step b = (s, some e) := by
  unfold next_step
  simp only [h, if_pos hidx, hpv]

theorem next_step_frontier_ok (s : Simplex) (b : Bool) (var : String)
    (p : LinearProgram)
    (h : s.current_state.linear_function.first_positive_coefficient b = some var)
    (hidx : s.index = s.historic.length - 1)
    (hpv : s.current_state.pivot var = (p, none)) :
    s.next_step b = (⟨s.index + 1, s.historic ++ [p]⟩, none) := by
  unfold next_step
  simp only [h, if_pos hidx, hpv]

theorem previous_step_historic (s : Simplex) :
    s.previous_step.historic = s.historic := by
  unfold previous_step
  by_cases h : s.index = 0
  · rw [if_pos h]
  · rw [if_neg h]

end Simplex

/-- Internal invariant of the stepper, holding in every reachable state: the
cursor is in range, position 0 holds the initial program, consecutive
snapshots are linked by one successful pivot, and every snapshot strictly
before the frontier still offers an entering variable. -/
def Inv (init : LinearProgram) (s : Simplex) : Prop :=
  s.index < s.historic.length ∧
  s.historic.getD 0 defaultLP = init ∧
  ∀ i, i + 1 < s.historic.length →
    (∃ var p, (s.historic.getD i defaultLP).pivot var = (p, none) ∧
      s.historic.getD (i + 1) defaultLP = p) ∧
    ((s.historic.getD i defaultLP).linear_function.first_positive_coefficient
        true).isSome

theorem Inv.next {init : LinearProgram} {s : Simplex} (hInv : Inv init s)
    (b : Bool) :
    Inv init (s.next_step b).1 ∧
      ∃ t, (s.next_step b).1.historic = s.historic ++ t := by
  obtain ⟨hlen, h0, hlink⟩ := hInv
  cases hfp : s.current_state.linear_function.first_positive_coefficient b with
  | none =>
    rw [Simplex.next_step_of_optimal s b hfp]
    exact ⟨⟨hlen, h0, hlink⟩, [], by simp⟩
  | some var =>
    by_cases hidx : s.index = s.historic.length - 1
    · cases hpv : s.current_state.pivot var with
      | mk p err =>
        cases err with
        | some e =>
          rw [Simplex.next_step_frontier_fail s b var p e hfp hidx hpv]
          exact ⟨⟨hlen, h0, hlink⟩, [], by simp⟩
        | none =>
          rw [Simplex.next_step_frontier_ok s b var p hfp hidx hpv]
          refine ⟨⟨?_, ?_, ?_⟩, [p], rfl⟩
          · simp only [List.length_append, List.length_cons, List.length_nil]
            omega
          · rw [List.getD_append _ _ _ _ (by omega)]
            exact h0
          · intro i hi
            simp only [List.length_append, List.length_cons, List.length_nil] at hi
            by_cases hifr : i + 1 < s.historic.length
            · have hil : i < s.historic.length := by omega
              rw [List.getD_append _ _ _ _ hil, List.getD_append _ _ _ _ hifr]
              exact hlink i hifr
            · have hieq : i = s.historic.length - 1 := by omega
              have hil : i < s.historic.length := by omega
              have hi1 : i + 1 = s.historic.length := by omega
              have hcur : s.historic.getD i defaultLP = s.current_state := by
                rw [Simplex.current_state, hidx, hieq]
              rw [List.getD_append _ _ _ _ hil]
              constructor
              · refine ⟨var, p, ?_, ?_⟩
                · rw [hcur]; exact hpv
                · rw [hi1, List.getD_append_right _ _ _ _ (by omega)]
                  simp
              · rw [hcur, LinearFunction.first_positive_coefficient_flag _ true b,
                  hfp]
                rfl
    · rw [Simplex.next_step_behind s b var hfp hidx]
      refine ⟨⟨by show s.index + 1 < s.historic.length; omega, h0, hlink⟩, [], by simp⟩

theorem Inv.prev {init : LinearProgram} {s : Simplex} (hInv : Inv init s) :
    Inv init s.previous_step := by
  obtain ⟨hlen, h0, hlink⟩ := hInv
  unfold Simplex.previous_step
  by_cases h : s.index = 0
  · rw [if_pos h]; exact ⟨hlen, h0, hlink⟩
  · rw [if_neg h]
    exact ⟨by show s.index - 1 < s.historic.length; omega, h0, hlink⟩

theorem reachable_inv {init : LinearProgram} {s : Simplex}
    (h : Reachable init s) : Inv init s := by
  induction h with
  | init =>
    refine ⟨by simp [Simplex.fromLP], by simp [Simplex.fromLP], ?_⟩
    intro i hi
    simp [Simplex.fromLP] at hi
  | next s' b _ ih => exact (ih.next b).1
  | prev s' _ ih => exact ih.prev

end Pedalgo

namespace Pedalgo

/-! ### Analysis of the point-extraction loop -/

/-- Value of the coordinate of `v` after the `point` loop has processed the
given rows, starting from value `a`: the constant term of the last row whose
left side is exactly the single variable `v`, else `a`. -/
def lastDefVal (v : String) (a : ℚ) : List Constraint → ℚ
  | [] => a
  | r :: rs =>
    lastDefVal v
      (match r.left.name_single_variable with
        | some w => if w = v then r.right.constant else a
        | none => a) rs

namespace LinearProgram

theorem findIndex_eq_none_iff (v : String) (l : List String) :
    updatePoint.findIndex v l = none ↔ v ∉ l := by
  induction l with
  | nil => simp [updatePoint.findIndex]
  | cons w ws ih =>
    simp only [updatePoint.findIndex]
    by_cases h : w = v
    · rw [if_pos h]
      exact iff_of_false (by simp) (by simp [h])
    · rw [if_neg h, Option.map_eq_none', ih]
      constructor
      · intro hm hc
        rcases List.mem_cons.mp hc with rfl | hmem
        · exact h rfl
        · exact hm hmem
      · intro hc hm
        exact hc (List.mem_cons_of_mem w hm)

theorem set_map_of_findIndex {v : String} {l : List String} {j : ℕ}
    (g : String → ℚ) (c : ℚ) (hnd : l.Nodup)
    (h : updatePoint.findIndex v l = some j) :
    (l.map g).set j c = l.map fun u => if v = u then c else g u := by
  induction l generalizing j with
  | nil => exact absurd h (by simp [updatePoint.findIndex])
  | cons u us ih =>
    rw [List.nodup_cons] at hnd
    simp only [updatePoint.findIndex] at h
    by_cases hu : u = v
    · rw [if_pos hu] at h
      injection h with hj
      subst hj
      simp only [List.map_cons, List.set_cons_zero]
      congr 1
      · rw [if_pos hu.symm]
      · apply List.map_congr_left
        intro w hw
        have hwv : ¬v = w := by
          rintro rfl
          exact hnd.1 (hu ▸ hw)
        rw [if_neg hwv]
    · rw [if_neg hu] at h
      rw [Option.map_eq_some'] at h
      obtain ⟨j', hj', rfl⟩ := h
      simp only [List.map_cons, List.set_cons_succ]
      rw [ih hnd.2 hj']
      congr 1
      rw [if_neg (fun he => hu he.symm)]

theorem updatePoint_map (vars : List String) (g : String → ℚ) (r : Constraint)
    (hnd : vars.Nodup) :
    updatePoint vars (vars.map g) r =
      vars.map fun v =>
        match r.left.name_single_variable with
        | some w => if w = v then r.right.constant else g v
        | none => g v := by
  cases hns : r.left.name_single_variable with
  | none =>
    simp only [updatePoint, hns]
  | some w =>
    simp only [updatePoint, hns]
    cases hfi : updatePoint.findIndex w vars with
    | none =>
      have hw : w ∉ vars := (findIndex_eq_none_iff w vars).mp hfi
      symm
      apply List.map_congr_left
      intro v hv
      have : ¬w = v := fun he => hw (he ▸ hv)
      rw [if_neg this]
    | some j =>
      exact set_map_of_findIndex g r.right.constant hnd hfi

theorem foldl_updatePoint (rows : List Constraint) :
    ∀ (vars : List String) (g : String → ℚ), vars.Nodup →
      List.foldl (updatePoint vars) (vars.map g) rows =
        vars.map fun v => lastDefVal v (g v) rows := by
  induction rows with
  | nil => intro vars g _; rfl
  | cons r rs ih =>
    intro vars g hnd
    rw [List.foldl_cons, updatePoint_map vars g r hnd, ih vars _ hnd]
    apply List.map_congr_left
    intro v _
    rfl

end LinearProgram

theorem lastDefVal_spec (v : String) :
    ∀ (rows : List Constraint) (a : ℚ),
      (∃ c ∈ rows, c.left.name_single_variable = some v ∧
        lastDefVal v a rows = c.right.constant) ∨
      ((∀ c ∈ rows, c.left.name_single_variable ≠ some v) ∧
        lastDefVal v a rows = a) := by
  intro rows
  induction rows with
  | nil => intro a; exact Or.inr ⟨by simp, rfl⟩
  | cons r rs ih =>
    intro a
    have hstep : lastDefVal v a (r :: rs) =
        lastDefVal v
          (match r.left.name_single_variable with
            | some w => if w = v then r.right.constant else a
            | none => a) rs := rfl
    rcases ih (match r.left.name_single_variable with
      | some w => if w = v then r.right.constant else a
      | none => a) with ⟨c, hc, hns, hval⟩ | ⟨hall, hval⟩
    · exact Or.inl ⟨c, List.mem_cons_of_mem r hc, hns, by rw [hstep, hval]⟩
    · cases hns : r.left.name_single_variable with
      | some w =>
        by_cases hwv : w = v
        · refine Or.inl ⟨r, List.mem_cons_self r rs, by rw [hns, hwv], ?_⟩
          simp only [hns, if_pos hwv] at hval
          simp only [hstep, hns, if_pos hwv]
          exact hval
        · refine Or.inr ⟨?_, ?_⟩
          · intro c hc
            rcases List.mem_cons.mp hc with rfl | hc
            · rw [hns]
              exact fun he => hwv (by injection he)
            · exact hall c hc
          · simp only [hns, if_neg hwv] at hval
            simp only [hstep, hns, if_neg hwv]
            exact hval
      | none =>
        refine Or.inr ⟨?_, ?_⟩
        · intro c hc
          rcases List.mem_cons.mp hc with rfl | hc
          · rw [hns]; exact fun he => by injection he
          · exact hall c hc
        · simp only [hns] at hval
          simp only [hstep, hns]
          exact hval

theorem getD_map_lt {α β : Type} (f : α → β) (l : List α) (k : ℕ)
    (d : β) (d' : α) (hk : k < l.length) :
    (l.map f).getD k d = f (l.getD k d') := by
  rw [List.getD_eq_getElem _ _ (by simpa using hk),
    List.getD_eq_getElem _ _ hk, List.getElem_map]

namespace LinearProgram

theorem non_gap_variables_sorted (lp : LinearProgram) :
    AlphaSorted lp.non_gap_variables :=
  LinearFunction.sortStrings_sorted _

theorem non_gap_variables_nodup (lp : LinearProgram) :
    lp.non_gap_variables.Nodup :=
  (LinearFunction.sortStrings_perm _).nodup_iff.mpr (List.nodup_dedup _)

theorem mem_non_gap_variables (lp : LinearProgram) (v : String) :
    v ∈ lp.non_gap_variables ↔
      v ∈ lp.linear_function.non_gap_variables ∨
      v ∈ lp.constraints.non_gap_variables := by
  rw [non_gap_variables, LinearFunction.mem_sortStrings, List.mem_dedup,
    List.mem_append]

end LinearProgram

end Pedalgo

namespace Pedalgo

/-! ### Concrete programs used by the witnesses and counterexamples -/

theorem g1_ne_x : ("_g1" : String) ≠ "x" := by decide

theorem x_ne_g1 : ("x" : String) ≠ "_g1" := by decide

/-- Subtraction unfolded to its raw term-list form (for evaluation). -/
theorem LinearFunction.sub_eval (f g : LinearFunction) :
    f - g = ⟨f.terms ++ g.terms.map (fun p => (p.1, -p.2)),
      f.constant + -g.constant⟩ := rfl

/-- `max x` subject to the single tableau row `_g1 = 2 − x`
(from the constraint `x ≤ 2`). -/
def lp0 : LinearProgram :=
  ⟨LinearFunction.ofVar "x",
   ⟨[⟨LinearFunction.ofVar "_g1", Operator.lessEqual, ⟨[("x", -1)], 2⟩⟩]⟩⟩

/-- `lp0` after one pivot on `x`: objective `2 − _g1`, row `x = 2 − _g1`. -/
def lp1 : LinearProgram :=
  ⟨⟨[("_g1", -1)], 2⟩,
   ⟨[⟨LinearFunction.ofVar "x", Operator.lessEqual, ⟨[("_g1", -1)], 2⟩⟩]⟩⟩

/-- The stepper of `lp0` after one `advance`. -/
def s1 : Simplex := (Simplex.next_step (Simplex.fromLP lp0) true).1

/-- `s1` after one `retreat`: cursor 0, strictly behind the frontier, and the
frontier snapshot (index 1) is optimal. -/
def s2 : Simplex := s1.previous_step

set_option maxRecDepth 10000 in
theorem next_step_fromLP_lp0_eval :
    Simplex.next_step (Simplex.fromLP lp0) true = (⟨1, [lp0, lp1]⟩, none) := by
  norm_num [Simplex.next_step, Simplex.fromLP, Simplex.current_state,
    LinearFunction.first_positive_coefficient,
    LinearFunction.first_positive_coefficient.firstPos,
    LinearFunction.var_iter, LinearFunction.ofVar, LinearFunction.coeffOf,
    LinearFunction.sortStrings, LinearFunction.nonzeroVars,
    LinearFunction.insertSorted, sumCoeff, List.dedup, lp0, lp1,
    LinearProgram.pivot, Constraints.most_restrictive, Constraints.mrAux,
    Constraints.rowBound, Constraints.pivot, Constraint.normalize,
    LinearFunction.solve_for, LinearFunction.replace, List.range,
    List.range.loop, LinearFunction.sub_eval, g1_ne_x, x_ne_g1]

theorem s1_eq : s1 = ⟨1, [lp0, lp1]⟩ := by
  unfold s1
  rw [next_step_fromLP_lp0_eval]

theorem s2_eq : s2 = ⟨0, [lp0, lp1]⟩ := by
  unfold s2
  rw [s1_eq]
  rfl

theorem fp_lp0 :
    lp0.linear_function.first_positive_coefficient true = some "x" := by
  norm_num [LinearFunction.first_positive_coefficient,
    LinearFunction.first_positive_coefficient.firstPos,
    LinearFunction.var_iter, LinearFunction.ofVar, LinearFunction.coeffOf,
    LinearFunction.sortStrings, LinearFunction.nonzeroVars,
    LinearFunction.insertSorted, sumCoeff, List.dedup, lp0]

theorem fp_lp1_none (b : Bool) :
    lp1.linear_function.first_positive_coefficient b = none := by
  norm_num [LinearFunction.first_positive_coefficient,
    LinearFunction.first_positive_coefficient.firstPos,
    LinearFunction.var_iter, LinearFunction.coeffOf,
    LinearFunction.sortStrings, LinearFunction.nonzeroVars,
    LinearFunction.insertSorted, sumCoeff, List.dedup, lp1]

theorem lp0_valid : lp0.is_valid := by
  show ∀ r ∈ lp0.constraints.inner, 0 ≤ r.right.constant
  intro r hr
  simp only [lp0, List.mem_singleton] at hr
  subst hr
  norm_num

theorem lp0_mr : lp0.constraints.most_restrictive "x" = some 0 := by
  norm_num [lp0, Constraints.most_restrictive, Constraints.mrAux,
    Constraints.rowBound, LinearFunction.coeffOf, sumCoeff]

theorem lp0_row_left_constant :
    (lp0.constraints.inner.getD 0 emptyConstraint).left.constant = 0 := rfl

theorem lp0_row_left_coeff :
    (lp0.constraints.inner.getD 0 emptyConstraint).left.coeffOf "x" = 0 := by
  norm_num [lp0, LinearFunction.ofVar, LinearFunction.coeffOf, sumCoeff, g1_ne_x]

theorem s1_index_pos : 0 < s1.index := by
  rw [s1_eq]
  exact Nat.zero_lt_one

/-- A feasible program whose selected pivot row is not in dictionary form:
the row reads `5 = 2 − y` (left side a bare constant 5). -/
def lpC3 : LinearProgram :=
  ⟨LinearFunction.zero, ⟨[⟨⟨[], 5⟩, Operator.equal, ⟨[("y", -1)], 2⟩⟩]⟩⟩

theorem lpC3_valid : lpC3.is_valid := by
  show ∀ r ∈ lpC3.constraints.inner, 0 ≤ r.right.constant
  intro r hr
  simp only [lpC3, List.mem_singleton] at hr
  subst hr
  norm_num

theorem lpC3_mr : lpC3.constraints.most_restrictive "y" = some 0 := by
  norm_num [lpC3, Constraints.most_restrictive, Constraints.mrAux,
    Constraints.rowBound, LinearFunction.coeffOf, sumCoeff]

set_option maxRecDepth 10000 in
theorem lpC3_pivot_eval :
    lpC3.pivot "y" =
      (⟨⟨[], 0⟩, ⟨[⟨LinearFunction.ofVar "y", Operator.equal, ⟨[], -3⟩⟩]⟩⟩,
       none) := by
  norm_num [lpC3, LinearProgram.pivot, Constraints.most_restrictive,
    Constraints.mrAux, Constraints.rowBound, Constraints.pivot,
    Constraint.normalize, LinearFunction.solve_for, LinearFunction.replace,
    LinearFunction.coeffOf, sumCoeff, List.range, List.range.loop,
    LinearFunction.sub_eval, LinearFunction.zero, LinearFunction.ofVar]

/-- An infeasible program: its single row has constant term `−1`. -/
def badLP : LinearProgram :=
  ⟨LinearFunction.zero,
   ⟨[⟨LinearFunction.ofVar "_g1", Operator.lessEqual, ⟨[], -1⟩⟩]⟩⟩

theorem badLP_not_valid : ¬badLP.is_valid := by
  intro h
  have := h ⟨LinearFunction.ofVar "_g1", Operator.lessEqual, ⟨[], -1⟩⟩
    (by simp [badLP])
  norm_num at this

/-- A program whose objective consists of the gap variable `_g1` alone, with
no constraint rows. -/
def lpG : LinearProgram := ⟨LinearFunction.ofVar "_g1", ⟨[]⟩⟩

theorem lpG_var_iter : lpG.linear_function.var_iter = ["_g1"] := by
  norm_num [lpG, LinearFunction.var_iter, LinearFunction.ofVar,
    LinearFunction.sortStrings, LinearFunction.nonzeroVars,
    LinearFunction.insertSorted, sumCoeff, List.dedup]

/-- An unbounded program: objective `x`, no constraint rows. -/
def lpUnb : LinearProgram := ⟨LinearFunction.ofVar "x", ⟨[]⟩⟩

theorem lpUnb_pivot :
    lpUnb.pivot "x" = (lpUnb, some SimplexError.unbounded) :=
  LinearProgram.pivot_eq_of_none lpUnb "x" rfl

theorem sOpt_next_step :
    Simplex.next_step (Simplex.fromLP lp1) true =
      (Simplex.fromLP lp1, some SimplexError.alreadyOptimal) :=
  Simplex.next_step_of_optimal (Simplex.fromLP lp1) true (fp_lp1_none true)

end Pedalgo

namespace Pedalgo

/-! ### Claim C1 -/

/-- C1 counterexample: a reachable stepper whose cursor (0) is strictly
behind the frontier (1), whose frontier snapshot has no entering variable
(it is optimal), while the cursor snapshot still offers the entering
variable `x`.  Contrary to the claim that `advance` examines the frontier —
which would make this call fail `AlreadyOptimal` — `next_step` succeeds and
merely moves the cursor: the entering-variable search reads the cursor. -/
theorem C1_counterexample :
    s2.index < s2.historic.length - 1 ∧
    (s2.historic.getD (s2.historic.length - 1)
        defaultLP).linear_function.first_positive_coefficient true = none ∧
    s2.current_state.linear_function.first_positive_coefficient true
      = some "x" ∧
    Simplex.next_step s2 true = (⟨1, s2.historic⟩, none) := by
  refine ⟨?_, ?_, ?_, ?_⟩
  · rw [s2_eq]
    exact Nat.zero_lt_one
  · rw [s2_eq]
    show lp1.linear_function.first_positive_coefficient true = none
    exact fp_lp1_none true
  · rw [s2_eq]
    show lp0.linear_function.first_positive_coefficient true = some "x"
    exact fp_lp0
  · rw [s2_eq]
    have h1 : (⟨0, [lp0, lp1]⟩ : Simplex).current_state.linear_function.first_positive_coefficient
        true = some "x" := fp_lp0
    have h2 : (⟨0, [lp0, lp1]⟩ : Simplex).index ≠
        (⟨0, [lp0, lp1]⟩ : Simplex).historic.length - 1 := by decide
    exact Simplex.next_step_behind _ true "x" h1 h2

/-- C1 amended: for every stepper whose cursor is strictly behind the
frontier, `next_step` determines the entering variable — and hence the
`AlreadyOptimal` terminal condition — from the program at the cursor
(`current_state`), not from the frontier snapshot; when the cursor program
has an entering variable the call only increments the cursor, leaving the
history unchanged. -/
theorem C1_advance_examines_cursor (s : Simplex) (b : Bool)
    (hbehind : s.index < s.historic.length - 1) :
    ((s.next_step b).2 = some SimplexError.alreadyOptimal ↔
      s.current_state.linear_function.first_positive_coefficient b = none) ∧
    ∀ var, s.current_state.linear_function.first_positive_coefficient b
        = some var →
      s.next_step b = (⟨s.index + 1, s.historic⟩, none) := by
  have hidx : s.index ≠ s.historic.length - 1 := by omega
  cases hfp : s.current_state.linear_function.first_positive_coefficient b with
  | none =>
    rw [Simplex.next_step_of_optimal s b hfp]
    refine ⟨by simp, ?_⟩
    intro var h
    exact Option.noConfusion h
  | some var =>
    rw [Simplex.next_step_behind s b var hfp hidx]
    refine ⟨by simp, ?_⟩
    intro var' _
    rfl

/-- C1 witness: the amended theorem applied to the concrete behind-frontier
stepper `s2`. -/
theorem C1_witness :
    Simplex.next_step s2 true = (⟨s2.index + 1, s2.historic⟩, none) :=
  (C1_advance_examines_cursor s2 true
      (by rw [s2_eq]; exact Nat.zero_lt_one)).2
    "x" (by rw [s2_eq]; exact fp_lp0)

/-! ### Claim C2 -/

/-- C2: `Constraint::new` canonicalizes exactly per the table — `Equal`
stores `left − right` and the zero expression, `Less`/`Greater`/
`GreaterEqual` store both sides unchanged, `LessEqual` stores `−left` with
the right side unchanged — and in every case the stored operator is the
original one. -/
theorem C2_new_canonicalization (l r : LinearFunction) :
    Constraint.new l Operator.equal r =
        ⟨l - r, Operator.equal, LinearFunction.zero⟩ ∧
    Constraint.new l Operator.less r = ⟨l, Operator.less, r⟩ ∧
    Constraint.new l Operator.greater r = ⟨l, Operator.greater, r⟩ ∧
    Constraint.new l Operator.lessEqual r = ⟨-l, Operator.lessEqual, r⟩ ∧
    Constraint.new l Operator.greaterEqual r = ⟨l, Operator.greaterEqual, r⟩ ∧
    (∀ op, (Constraint.new l op r).operator = op) ∧
    (∀ v, (Constraint.new l Operator.equal r).left.coeffOf v =
      l.coeffOf v - r.coeffOf v) ∧
    (Constraint.new l Operator.equal r).right.constant = 0 ∧
    (∀ v, (Constraint.new l Operator.lessEqual r).left.coeffOf v =
      -(l.coeffOf v)) ∧
    (Constraint.new l Operator.lessEqual r).right = r := by
  refine ⟨rfl, rfl, rfl, rfl, rfl, ?_, ?_, rfl, ?_, rfl⟩
  · intro op
    cases op <;> rfl
  · intro v
    exact LinearFunction.coeffOf_sub l r v
  · intro v
    exact LinearFunction.coeffOf_neg l v

/-! ### Claim C3 -/

/-- C3 counterexample: a feasible program (`lpC3`, single row `5 = 2 − y`)
whose minimum-ratio test selects a row and whose pivot succeeds, yet after
the pivot the program is no longer valid — the claim fails for programs
whose selected row is not in dictionary form. -/
theorem C3_counterexample :
    lpC3.is_valid ∧
    lpC3.constraints.most_restrictive "y" = some 0 ∧
    (lpC3.pivot "y").2 = none ∧
    ¬(lpC3.pivot "y").1.is_valid := by
  refine ⟨lpC3_valid, lpC3_mr, ?_, ?_⟩
  · rw [lpC3_pivot_eval]
  · rw [lpC3_pivot_eval]
    intro h
    have := h ⟨LinearFunction.ofVar "y", Operator.equal, ⟨[], -3⟩⟩ (by simp)
    norm_num at this

/-- C3 amended: for every valid program and entering variable with a
restricting row, if the selected row is in dictionary form with respect to
the entering variable (left side with zero constant and no occurrence of the
variable — in particular any row whose left side is a single basic variable
other than it), the pivot succeeds and the resulting program is again
valid. -/
theorem C3_pivot_preserves_validity (lp : LinearProgram) (var : String)
    (i : ℕ) (hv : lp.is_valid)
    (hmr : lp.constraints.most_restrictive var = some i)
    (hc0 : (lp.constraints.inner.getD i emptyConstraint).left.constant = 0)
    (hcv : (lp.constraints.inner.getD i emptyConstraint).left.coeffOf var = 0) :
    (lp.pivot var).1.is_valid ∧ (lp.pivot var).2 = none := by
  rw [LinearProgram.pivot_eq_of_some lp var i hmr]
  exact ⟨Constraints.pivot_preserves_is_valid lp.constraints var i hv hmr
    hc0 hcv, rfl⟩

/-- C3 witness: the amended theorem applied to the concrete valid tableau
`lp0` pivoted on `x`. -/
theorem C3_witness :
    (lp0.pivot "x").1.is_valid ∧ (lp0.pivot "x").2 = none :=
  C3_pivot_preserves_validity lp0 "x" 0 lp0_valid lp0_mr
    lp0_row_left_constant lp0_row_left_coeff

/-! ### Claim C4 -/

/-- C4 counterexample: on the concrete invalid program `badLP`, `point`
panics (the library aborts) instead of reporting a recoverable domain error
to the caller. -/
theorem C4_counterexample :
    ¬badLP.is_valid ∧
    badLP.point = PanicOr.panic "Linear program is not valid" := by
  refine ⟨badLP_not_valid, ?_⟩
  unfold LinearProgram.point
  rw [if_neg badLP_not_valid]

/-- C4 amended: for every program that fails `is_valid`, `point()` (and
hence `values()`) panics with the message "Linear program is not valid"
rather than returning a coordinate vector or a recoverable error value. -/
theorem C4_point_panics (lp : LinearProgram) (h : ¬lp.is_valid) :
    lp.point = PanicOr.panic "Linear program is not valid" ∧
    lp.values = PanicOr.panic "Linear program is not valid" := by
  have hp : lp.point = PanicOr.panic "Linear program is not valid" := by
    unfold LinearProgram.point
    rw [if_neg h]
  refine ⟨hp, ?_⟩
  unfold LinearProgram.values
  rw [hp]

/-- C4 witness: the amended theorem applied to the concrete invalid program
`badLP`. -/
theorem C4_witness :
    badLP.point = PanicOr.panic "Linear program is not valid" ∧
    badLP.values = PanicOr.panic "Linear program is not valid" :=
  C4_point_panics badLP badLP_not_valid

/-! ### Claim C5 -/

/-- C5: `LinearProgram::pivot(var)` fails with `Unbounded` exactly when
`most_restrictive` finds no restricting row; otherwise it succeeds, pivots
the constraint set on the selected row, and substitutes the new definition
of `var` (the pivoted row's right side) into the objective, after which
`var` — now basic — no longer occurs in the objective. -/
theorem C5_pivot_unbounded_iff_and_substitution (lp : LinearProgram)
    (var : String) :
    ((lp.pivot var).2 = some SimplexError.unbounded ↔
      lp.constraints.most_restrictive var = none) ∧
    ∀ i, lp.constraints.most_restrictive var = some i →
      (lp.pivot var).2 = none ∧
      (lp.pivot var).1.constraints = lp.constraints.pivot i var ∧
      (lp.pivot var).1.linear_function =
        lp.linear_function.replace var
          ((lp.constraints.pivot i var).inner.getD i emptyConstraint).right ∧
      ((lp.constraints.pivot i var).inner.getD i
        emptyConstraint).right.coeffOf var = 0 ∧
      (lp.pivot var).1.linear_function.coeffOf var = 0 := by
  refine ⟨LinearProgram.pivot_snd_eq_some_iff lp var, ?_⟩
  intro i hmr
  have hi := (Constraints.most_restrictive_spec lp.constraints var i hmr).1
  have hnew : ((lp.constraints.pivot i var).inner.getD i
      emptyConstraint).right.coeffOf var = 0 := by
    rw [Constraints.pivot_getD_self lp.constraints i var hi]
    exact LinearFunction.coeffOf_solve_for_self _ var
  rw [LinearProgram.pivot_eq_of_some lp var i hmr]
  refine ⟨rfl, rfl, rfl, hnew, ?_⟩
  show (lp.linear_function.replace var
    ((lp.constraints.pivot i var).inner.getD i
      emptyConstraint).right).coeffOf var = 0
  rw [LinearFunction.coeffOf_replace, hnew]
  simp

/-- C5 witness: the theorem applied to the concrete program `lp0` and
entering variable `x` (restricting row 0). -/
theorem C5_witness :
    (lp0.pivot "x").2 = none ∧
    (lp0.pivot "x").1.linear_function.coeffOf "x" = 0 :=
  ⟨((C5_pivot_unbounded_iff_and_substitution lp0 "x").2 0 lp0_mr).1,
   ((C5_pivot_unbounded_iff_and_substitution lp0 "x").2 0 lp0_mr).2.2.2.2⟩

/-! ### Claim C6 -/

/-- C6 counterexample: the program `lpG` (objective `_g1`, no rows) is
reported unbounded by `is_unbounded` although no structural (non-gap)
variable of the objective lacks a restricting row — the source iterates
every objective variable, gap variables included, contradicting the
claim's "structural" restriction. -/
theorem C6_counterexample :
    lpG.is_unbounded = true ∧
    ¬∃ v ∈ lpG.linear_function.var_iter,
        isGapName v = false ∧ lpG.constraints.most_restrictive v = none := by
  constructor
  · rw [LinearProgram.is_unbounded, lpG_var_iter]
    rfl
  · rintro ⟨v, hv, hgap, -⟩
    rw [lpG_var_iter] at hv
    simp only [List.mem_singleton] at hv
    subst hv
    exact absurd hgap (by decide)

/-- C6 amended: `is_unbounded` returns true iff some variable of the
objective enumeration — structural or gap — has no restricting row. -/
theorem C6_is_unbounded_iff (lp : LinearProgram) :
    lp.is_unbounded = true ↔
      ∃ v ∈ lp.linear_function.var_iter,
        lp.constraints.most_restrictive v = none := by
  rw [LinearProgram.is_unbounded, List.any_eq_true]
  constructor
  · rintro ⟨v, hv, hn⟩
    exact ⟨v, hv, Option.isNone_iff_eq_none.mp hn⟩
  · rintro ⟨v, hv, hn⟩
    refine ⟨v, hv, ?_⟩
    rw [hn]
    rfl

end Pedalgo

namespace Pedalgo

/-! ### Claim C7 -/

/-- C7: for every valid program, `point` returns (without panicking) one
coordinate per structural variable; the variables are enumerated
alphabetically without repetition and are exactly the structural variables
of the objective and the tableau; each coordinate is the constant term of a
row whose left side is exactly that single variable, and 0 when no such row
exists. -/
theorem C7_point_characterization (lp : LinearProgram) (hv : lp.is_valid) :
    ∃ pt, lp.point = PanicOr.ok pt ∧
      pt.length = lp.non_gap_variables.length ∧
      AlphaSorted lp.non_gap_variables ∧
      lp.non_gap_variables.Nodup ∧
      (∀ v, v ∈ lp.non_gap_variables ↔
        (v ∈ lp.linear_function.non_gap_variables ∨
         v ∈ lp.constraints.non_gap_variables)) ∧
      ∀ k, k < lp.non_gap_variables.length →
        (∃ c ∈ lp.constraints.inner,
            c.left.name_single_variable =
              some (lp.non_gap_variables.getD k "") ∧
            pt.getD k 0 = c.right.constant) ∨
        ((∀ c ∈ lp.constraints.inner,
            c.left.name_single_variable ≠
              some (lp.non_gap_variables.getD k "")) ∧
          pt.getD k 0 = 0) := by
  have hnd := lp.non_gap_variables_nodup
  have hpt : lp.point = PanicOr.ok
      (lp.constraints.inner.foldl
        (LinearProgram.updatePoint lp.non_gap_variables)
        (List.replicate lp.non_gap_variables.length 0)) := by
    unfold LinearProgram.point
    rw [if_pos hv]
  have hrep : List.replicate lp.non_gap_variables.length (0 : ℚ) =
      lp.non_gap_variables.map (fun _ => (0 : ℚ)) := by
    rw [List.map_const']
  refine ⟨_, hpt, ?_, lp.non_gap_variables_sorted, hnd,
    lp.mem_non_gap_variables, ?_⟩
  · rw [hrep, LinearProgram.foldl_updatePoint lp.constraints.inner
      lp.non_gap_variables (fun _ => 0) hnd, List.length_map]
  · intro k hk
    rw [hrep, LinearProgram.foldl_updatePoint lp.constraints.inner
      lp.non_gap_variables (fun _ => 0) hnd,
      getD_map_lt _ _ k 0 "" hk]
    rcases lastDefVal_spec (lp.non_gap_variables.getD k "")
      lp.constraints.inner 0 with ⟨c, hc, hns, hval⟩ | ⟨hall, hval⟩
    · exact Or.inl ⟨c, hc, hns, hval⟩
    · exact Or.inr ⟨hall, hval⟩

/-- C7 witness: the theorem applied to the concrete valid program `lp0`. -/
theorem C7_witness :
    lp0.is_valid ∧
    ∃ pt, lp0.point = PanicOr.ok pt ∧
      pt.length = lp0.non_gap_variables.length ∧
      AlphaSorted lp0.non_gap_variables ∧
      lp0.non_gap_variables.Nodup ∧
      (∀ v, v ∈ lp0.non_gap_variables ↔
        (v ∈ lp0.linear_function.non_gap_variables ∨
         v ∈ lp0.constraints.non_gap_variables)) ∧
      ∀ k, k < lp0.non_gap_variables.length →
        (∃ c ∈ lp0.constraints.inner,
            c.left.name_single_variable =
              some (lp0.non_gap_variables.getD k "") ∧
            pt.getD k 0 = c.right.constant) ∨
        ((∀ c ∈ lp0.constraints.inner,
            c.left.name_single_variable ≠
              some (lp0.non_gap_variables.getD k "")) ∧
          pt.getD k 0 = 0) :=
  ⟨lp0_valid, C7_point_characterization lp0 lp0_valid⟩

/-! ### Claim C8 -/

/-- C8: for every reachable stepper whose cursor is past the initial state,
`retreat` followed by `advance` (with any tie-break flag) succeeds and
returns the stepper to the exact same state — the identical cursor and the
identical history, hence the identical program snapshot — without
recomputing or re-appending anything. -/
theorem C8_retreat_advance_roundtrip (init : LinearProgram) (s : Simplex)
    (b : Bool) (hreach : Reachable init s) (hpos : 0 < s.index) :
    Simplex.next_step s.previous_step b = (s, none) := by
  obtain ⟨hlen, h0, hlink⟩ := reachable_inv hreach
  have hne : s.index ≠ 0 := Nat.pos_iff_ne_zero.mp hpos
  have hprev : s.previous_step = ⟨s.index - 1, s.historic⟩ := by
    unfold Simplex.previous_step
    rw [if_neg hne]
  have hi1 : (s.index - 1) + 1 < s.historic.length := by omega
  obtain ⟨-, hfp⟩ := hlink (s.index - 1) hi1
  rw [Option.isSome_iff_exists] at hfp
  obtain ⟨var, hvar⟩ := hfp
  have hfpb : s.previous_step.current_state.linear_function.first_positive_coefficient
      b = some var := by
    rw [hprev]
    show (s.historic.getD (s.index - 1)
      defaultLP).linear_function.first_positive_coefficient b = some var
    rw [LinearFunction.first_positive_coefficient_flag _ b true]
    exact hvar
  have hidxne : s.previous_step.index ≠ s.previous_step.historic.length - 1 := by
    rw [hprev]
    show s.index - 1 ≠ s.historic.length - 1
    omega
  rw [Simplex.next_step_behind s.previous_step b var hfpb hidxne, hprev]
  show ((⟨(s.index - 1) + 1, s.historic⟩ : Simplex),
    (none : Option SimplexError)) = (s, none)
  have heq : s.index - 1 + 1 = s.index := by omega
  rw [heq]

/-- C8 witness: the theorem applied to the concrete reachable stepper `s1`
(cursor 1) with the Bland flag. -/
theorem C8_witness :
    0 < s1.index ∧ Simplex.next_step s1.previous_step true = (s1, none) :=
  ⟨s1_index_pos,
   C8_retreat_advance_roundtrip lp0 s1 true
     (Reachable.next (Simplex.fromLP lp0) true Reachable.init) s1_index_pos⟩

/-! ### Claim C9 -/

/-- C9: for every stepper reachable from an initial program by
advance/retreat calls, the cursor stays strictly inside the history, slot 0
still holds the initial unpivoted program, every later snapshot is obtained
from its predecessor by exactly one successful pivot, and the history never
shrinks — an advance at most appends, a retreat leaves it untouched. -/
theorem C9_solver_invariants (init : LinearProgram) (s : Simplex)
    (hreach : Reachable init s) :
    s.index < s.historic.length ∧
    s.historic.getD 0 defaultLP = init ∧
    (∀ i, i + 1 < s.historic.length → ∃ var p,
      (s.historic.getD i defaultLP).pivot var = (p, none) ∧
      s.historic.getD (i + 1) defaultLP = p) ∧
    (∀ b, ∃ t, (s.next_step b).1.historic = s.historic ++ t) ∧
    s.previous_step.historic = s.historic := by
  obtain ⟨hlen, h0, hlink⟩ := reachable_inv hreach
  exact ⟨hlen, h0, fun i hi => (hlink i hi).1,
    fun b => ((reachable_inv hreach).next b).2,
    Simplex.previous_step_historic s⟩

/-- C9 witness: the theorem applied to the concrete reachable stepper
`s1`. -/
theorem C9_witness :
    s1.index < s1.historic.length ∧ s1.historic.getD 0 defaultLP = lp0 :=
  ⟨(C9_solver_invariants lp0 s1
      (Reachable.next (Simplex.fromLP lp0) true Reachable.init)).1,
   (C9_solver_invariants lp0 s1
      (Reachable.next (Simplex.fromLP lp0) true Reachable.init)).2.1⟩

/-! ### Claim C10 -/

/-- C10: whenever `next_step` returns an error (`AlreadyOptimal`, or an
`Unbounded` propagated from a failed pivot), the stepper is returned exactly
as it was — cursor unmoved, history unextended; likewise
`LinearProgram::pivot` returns the program unmodified when it fails. -/
theorem C10_failed_steps_leave_state_unchanged :
    (∀ (s : Simplex) (b : Bool) (e : SimplexError),
      (s.next_step b).2 = some e → (s.next_step b).1 = s) ∧
    (∀ (lp : LinearProgram) (var : String) (e : SimplexError),
      (lp.pivot var).2 = some e → (lp.pivot var).1 = lp) := by
  constructor
  · intro s b e h
    cases hfp : s.current_state.linear_function.first_positive_coefficient b with
    | none => rw [Simplex.next_step_of_optimal s b hfp]
    | some var =>
      by_cases hidx : s.index = s.historic.length - 1
      · cases hpv : s.current_state.pivot var with
        | mk p err =>
          cases err with
          | some e' =>
            rw [Simplex.next_step_frontier_fail s b var p e' hfp hidx hpv]
          | none =>
            rw [Simplex.next_step_frontier_ok s b var p hfp hidx hpv] at h
            exact absurd h (by simp)
      · rw [Simplex.next_step_behind s b var hfp hidx] at h
        exact absurd h (by simp)
  · intro lp var e h
    cases hmr : lp.constraints.most_restrictive var with
    | none => rw [LinearProgram.pivot_eq_of_none lp var hmr]
    | some i =>
      rw [LinearProgram.pivot_eq_of_some lp var i hmr] at h
      exact absurd h (by simp)

/-- C10 witness: the theorem applied to a concrete `AlreadyOptimal` step
(the stepper of the optimal program `lp1`) and a concrete `Unbounded` pivot
(the unconstrained program `lpUnb`). -/
theorem C10_witness :
    (Simplex.next_step (Simplex.fromLP lp1) true).2 =
        some SimplexError.alreadyOptimal ∧
    (Simplex.next_step (Simplex.fromLP lp1) true).1 = Simplex.fromLP lp1 ∧
    (lpUnb.pivot "x").2 = some SimplexError.unbounded ∧
    (lpUnb.pivot "x").1 = lpUnb :=
  ⟨by rw [sOpt_next_step],
   C10_failed_steps_leave_state_unchanged.1 (Simplex.fromLP lp1) true
     SimplexError.alreadyOptimal (by rw [sOpt_next_step]),
   by rw [lpUnb_pivot],
   C10_failed_steps_leave_state_unchanged.2 lpUnb "x"
     SimplexError.unbounded (by rw [lpUnb_pivot])⟩

end Pedalgo
